import Mathlib

/-!
Verification of the giverny task-handoff system against its specification.

The development shallowly embeds the Go sources of the repository:

* `validateTaskID` from `cmd/giverny/main.go`;
* `pollForPidFile`, `StartServer`, `tryStartServer`, `StopServer` from
  `internal/git/git_server.go` (process and file-system effects are injected
  as explicit environments, and the effects performed are returned as a trace);
* `postClaudeMenu` from `internal/innie/innie.go` (terminal input is an
  injected list of choices, one per loop iteration);
* `outie.Run` from `internal/outie/outie.go` (collaborator calls are injected
  and recorded as an event trace);
* `GetBranchCommitRange` from `internal/git/branch.go`, over an oracle of the
  four git subcommands it shells out to, together with a concrete model of a
  git repository (single-parent commit chains, refs, and an upstream-tracking
  table that the resolver provably never consults).

Machine integers are modelled as `Int`/`Nat`; fallible operations return
`Option`/`Except`.  Printing to the terminal is pure display and is not
modelled.
-/

/-! ## Go string helpers

`goSpaceChar` is the character class matched by `\s` in Go's regexp package
(RE2 Perl class: tab, newline, form feed, carriage return, space).
`strContains` models `strings.Contains`; `goStartsWith` and `goEndsWith`
model `strings.HasPrefix` and `strings.HasSuffix`. -/

def goSpaceChar (c : Char) : Bool :=
  c = '\t' || c = '\n' || c = '\x0c' || c = '\r' || c = ' '

def leadsWith : List Char → List Char → Bool
  | _, [] => true
  | [], _ :: _ => false
  | a :: as, b :: bs => a = b && leadsWith as bs

def hasSubList (pat : List Char) : List Char → Bool
  | [] => leadsWith [] pat
  | a :: as => leadsWith (a :: as) pat || hasSubList pat as

def strContains (s sub : String) : Bool :=
  hasSubList sub.toList s.toList

def goStartsWith (s p : String) : Bool :=
  leadsWith s.toList p.toList

def goEndsWith (s p : String) : Bool :=
  leadsWith s.toList.reverse p.toList.reverse

/-- Single-quote character, used to build Go error messages of the form
`'%s'` without writing a quote character in a literal. -/
def quoteStr : String := String.singleton (Char.ofNat 39)

/-! ## validateTaskID (cmd/giverny/main.go:165-206) -/

/-- Character class of the Go regexp `[/\\\s\x00-\x1f\x7f~^:?*\[]` used by
`validateTaskID`. -/
def invalidTaskChar (c : Char) : Bool :=
  c = '/' || c = '\\' || goSpaceChar c || c.toNat ≤ 31 || c.toNat = 127 ||
  c = '~' || c = '^' || c = ':' || c = '?' || c = '*' || c = '['

/-- Error message chosen by `validateTaskID` for the first invalid character
found by the regexp. -/
def invalidCharMsg (c : Char) : String :=
  if c = '/' then "TASK-ID cannot contain forward slash (/)"
  else if c = '\\' then "TASK-ID cannot contain backslash (\\)"
  else if c = ' ' then "TASK-ID cannot contain spaces"
  else if c.toNat < 32 || c.toNat = 127 then "TASK-ID cannot contain control characters"
  else "TASK-ID cannot contain " ++ quoteStr ++ String.singleton c ++ quoteStr

/-- Shallow embedding of `validateTaskID` (cmd/giverny/main.go).  Returns
`some errorMessage` where the Go function returns a non-nil error and `none`
where it returns nil.  `FindString` on a one-character class returns the
leftmost matching character, i.e. `List.find?` over the runes. -/
def validateTaskID (taskID : String) : Option String :=
  if taskID = "" then
    some "TASK-ID cannot be empty"
  else
    match taskID.toList.find? invalidTaskChar with
    | some c => some (invalidCharMsg c)
    | none =>
      if strContains taskID ".." then some "TASK-ID cannot contain double dots (..)"
      else if strContains taskID "@\x7b" then some "TASK-ID cannot contain @\x7b"
      else if goStartsWith taskID "." then some "TASK-ID cannot start with a dot"
      else if goEndsWith taskID ".lock" then some "TASK-ID cannot end with .lock"
      else none

/-- Character classes the specification's validation surface lists explicitly:
path separators, control characters (0-31 and 127), and the ref-special
characters `~ ^ : ? * [`.  Unlike `invalidTaskChar` it does not include the
whitespace class `\s`. -/
def specListedChar (c : Char) : Bool :=
  c = '/' || c = '\\' || c.toNat ≤ 31 || c.toNat = 127 ||
  c = '~' || c = '^' || c = ':' || c = '?' || c = '*' || c = '['

theorem invalidTaskChar_eq_or (c : Char) :
    invalidTaskChar c = true ↔ (specListedChar c = true ∨ goSpaceChar c = true) := by
  simp only [invalidTaskChar, specListedChar, Bool.or_eq_true]
  tauto

theorem validateTaskID_eq_none_iff (s : String) :
    validateTaskID s = none ↔
      (s ≠ "" ∧ (∀ c ∈ s.toList, invalidTaskChar c = false) ∧
       strContains s ".." = false ∧ strContains s "@\x7b" = false ∧
       goStartsWith s "." = false ∧ goEndsWith s ".lock" = false) := by
  unfold validateTaskID
  by_cases hs : s = ""
  · simp [hs]
  · rw [if_neg hs]
    cases hf : s.toList.find? invalidTaskChar with
    | some c =>
      have hc := List.find?_some hf
      have hmem := List.mem_of_find?_eq_some hf
      constructor
      · intro h; exact absurd h (by simp)
      · rintro ⟨-, hall, -⟩
        exact absurd (hall c hmem) (by simp [hc])
    | none =>
      have hall : ∀ c ∈ s.toList, invalidTaskChar c = false := by
        intro c hcm
        have := List.find?_eq_none.mp hf c hcm
        simpa using this
      cases h1 : strContains s ".." <;> cases h2 : strContains s "@\x7b" <;>
        cases h3 : goStartsWith s "." <;> cases h4 : goEndsWith s ".lock" <;>
        simp [h1, h2, h3, h4, hs, hall] <;> exact hall

/-- C9: `validateTaskID` rejects the empty string, strings containing a path
separator, a control character (0-31 or 127), one of `~ ^ : ? * [`, the
substring `..` or `@` followed by an opening brace, strings starting with a
dot, and strings ending in `.lock`; every string in none of these classes and
containing no whitespace passes validation. -/
theorem validateTaskID_matches_spec_surface (s : String) :
    ((s = "" ∨ (∃ c ∈ s.toList, specListedChar c = true) ∨
        strContains s ".." = true ∨ strContains s "@\x7b" = true ∨
        goStartsWith s "." = true ∨ goEndsWith s ".lock" = true) →
      (validateTaskID s).isSome = true)
  ∧ ((s ≠ "" ∧ (∀ c ∈ s.toList, specListedChar c = false ∧ goSpaceChar c = false) ∧
        strContains s ".." = false ∧ strContains s "@\x7b" = false ∧
        goStartsWith s "." = false ∧ goEndsWith s ".lock" = false) →
      validateTaskID s = none) := by
  constructor
  · intro h
    rw [Option.isSome_iff_ne_none]
    intro hnone
    rw [validateTaskID_eq_none_iff] at hnone
    obtain ⟨hne, hall, h1, h2, h3, h4⟩ := hnone
    rcases h with h | ⟨c, hcm, hc⟩ | h | h | h | h
    · exact hne h
    · have hfalse := hall c hcm
      have htrue : invalidTaskChar c = true := (invalidTaskChar_eq_or c).mpr (Or.inl hc)
      simp [hfalse] at htrue
    · simp [h] at h1
    · simp [h] at h2
    · simp [h] at h3
    · simp [h] at h4
  · rintro ⟨hne, hall, h1, h2, h3, h4⟩
    rw [validateTaskID_eq_none_iff]
    refine ⟨hne, ?_, h1, h2, h3, h4⟩
    intro c hcm
    have hboth := hall c hcm
    cases h : invalidTaskChar c
    · rfl
    · rcases (invalidTaskChar_eq_or c).mp h with hh | hh
      · simp [hboth.1] at hh
      · simp [hboth.2] at hh

/-- Witness for C9: the accepting direction at the concrete TASK-ID `demo-1`. -/
theorem validateTaskID_matches_spec_surface_witness :
    validateTaskID "demo-1" = none :=
  (validateTaskID_matches_spec_surface "demo-1").2 (by decide)

/-- C10: `validateTaskID` also rejects every TASK-ID containing a whitespace
character (any character matched by Go's `\s`: space, tab, newline, form feed,
carriage return), a class the specification's validation surface does not
list. -/
theorem validateTaskID_rejects_whitespace (s : String) (c : Char)
    (hmem : c ∈ s.toList) (hws : goSpaceChar c = true) :
    (validateTaskID s).isSome = true := by
  rw [Option.isSome_iff_ne_none]
  intro hnone
  rw [validateTaskID_eq_none_iff] at hnone
  have hfalse := hnone.2.1 c hmem
  have htrue : invalidTaskChar c = true := (invalidTaskChar_eq_or c).mpr (Or.inr hws)
  simp [hfalse] at htrue

/-- Witness for C10: a TASK-ID containing a space is rejected. -/
theorem validateTaskID_rejects_whitespace_witness :
    (validateTaskID "a b").isSome = true :=
  validateTaskID_rejects_whitespace "a b" ' ' (by decide) (by decide)

/-! ## Git server lifecycle (internal/git/git_server.go)

Constants from the source; `randomPort` models
`minPort + rand.Intn(maxPort-minPort+1)` with the raw random draw injected. -/

def minPort : Nat := 2001

def maxPort : Nat := 9999

def maxRetries : Nat := 10

def randomPort (draw : Nat) : Nat := minPort + draw % (maxPort - minPort + 1)

/-- Model of `fmt.Sscanf(string(pidData), "%d", &actualPid)`: skip leading
non-newline whitespace, then an optional sign followed by at least one decimal
digit; trailing bytes are ignored.  A leading newline makes the scan fail,
and it is not in the skipped set, so it falls through to the digit test and
fails there. -/
def digitsToNat (ds : List Char) : Nat :=
  ds.foldl (fun a c => a * 10 + (c.toNat - 48)) 0

def parsePidInt (s : String) : Option Int :=
  let cs := s.toList.dropWhile
    (fun c => c = ' ' || c = '\t' || c = '\x0b' || c = '\x0c' || c = '\r')
  match cs with
  | '-' :: rest =>
    let ds := rest.takeWhile Char.isDigit
    if ds = [] then none else some (-(Int.ofNat (digitsToNat ds)))
  | '+' :: rest =>
    let ds := rest.takeWhile Char.isDigit
    if ds = [] then none else some (Int.ofNat (digitsToNat ds))
  | _ =>
    let ds := cs.takeWhile Char.isDigit
    if ds = [] then none else some (Int.ofNat (digitsToNat ds))

/-- One iteration of the polling loop of `pollForPidFile`
(internal/git/git_server.go:96-129).  Time is discretised: each failed read
sleeps one `pidPollInterval` tick, and the deadline admits `fuel` further
reads.  The injected `readFile` is indexed by the tick at which the read
happens, since the pid file mutates between polls. -/
def pollLoop (readFile : Nat → Except String String) : Nat → Nat → Except String Int
  | _, 0 => .error "timeout waiting for PID file"
  | t, fuel + 1 =>
    match readFile t with
    | .error _ => pollLoop readFile (t + 1) fuel
    | .ok pidData =>
      if pidData.length = 0 then pollLoop readFile (t + 1) fuel
      else
        match parsePidInt pidData with
        | none => pollLoop readFile (t + 1) fuel
        | some pid => .ok pid

/-- Shallow embedding of `pollForPidFile`: poll from tick 0 until a read
parses or `timeoutTicks` reads have failed. -/
def pollForPidFile (readFile : Nat → Except String String) (timeoutTicks : Nat) :
    Except String Int :=
  pollLoop readFile 0 timeoutTicks

/-- A read outcome that `pollForPidFile` retries: a read error (file absent),
an empty file, or content `Sscanf` cannot parse. -/
def badPidRead (r : Except String String) : Prop :=
  (∃ e, r = .error e) ∨ (∃ d, r = .ok d ∧ (d.length = 0 ∨ parsePidInt d = none))

/-! ### tryStartServer / StartServer -/

/-- Effects `tryStartServer` performs on the outside world, in order. -/
inductive FsEv where
  | createTemp
  | removeFile
  | procStart
  | procKill
  | procWait
deriving DecidableEq, Repr

/-- Injected outcomes of the external operations of one `tryStartServer`
attempt: pid-file creation, `cmd.Start()` (`none` = started), and the result
of `pollForPidFile` on the attempt's pid file. -/
structure TryEnv where
  createTempRes : Except String Unit
  startRes : Option String
  pollRes : Except String Int

structure ServerCmdM where
  actualPid : Int
  hasCmd : Bool
deriving DecidableEq, Repr

/-- Shallow embedding of `tryStartServer` (internal/git/git_server.go:50-88).
Returns the result together with the trace of effects performed.  The
deferred `os.Remove(pidFilePath)` runs at every return after the temp file
was created, hence `removeFile` ends every such trace. -/
def tryStartServer (env : TryEnv) (port : Nat) : Except String ServerCmdM × List FsEv :=
  match env.createTempRes with
  | .error e => (.error ("failed to create PID file: " ++ e), [.createTemp])
  | .ok _ =>
    match env.startRes with
    | some e =>
      if strContains e "address already in use" then
        (.error ("port " ++ toString port ++ " already in use"),
         [.createTemp, .procStart, .removeFile])
      else
        (.error ("failed to start git server on port " ++ toString port ++ ": " ++ e),
         [.createTemp, .procStart, .removeFile])
    | none =>
      match env.pollRes with
      | .error e =>
        (.error ("failed to start git server on port " ++ toString port ++ ": " ++ e),
         [.createTemp, .procStart, .procKill, .procWait, .removeFile])
      | .ok pid =>
        (.ok { actualPid := pid, hasCmd := true },
         [.createTemp, .procStart, .removeFile])

/-- The retry loop of `StartServer` (internal/git/git_server.go:23-36).
`tries` injects each attempt's environment, `rands` each attempt's random
draw; `lastErr` threads the `lastErr` variable of the source. -/
def startServerGo (tries : Nat → TryEnv) (rands : Nat → Nat) :
    Nat → Nat → Option String → Except String (ServerCmdM × Nat)
  | _, 0, lastErr =>
    .error ("failed to start git server after " ++ toString maxRetries ++
      " attempts: " ++ lastErr.getD "")
  | attempt, fuel + 1, _ =>
    let port := randomPort (rands attempt)
    match (tryStartServer (tries attempt) port).1 with
    | .ok cmd => .ok (cmd, port)
    | .error e => startServerGo tries rands (attempt + 1) fuel (some e)

def StartServer (tries : Nat → TryEnv) (rands : Nat → Nat) :
    Except String (ServerCmdM × Nat) :=
  startServerGo tries rands 0 maxRetries none

/-! ### StopServer -/

/-- Injected outcomes of the OS operations of one `StopServer` call:
`os.FindProcess`, `process.Kill()` (`none` = delivered), and the wrapper
`Wait()` (whose result the source discards). -/
structure StopEnv where
  findRes : Except String Unit
  killRes : Option String
  waitRes : Option String

/-- The two kill-error messages `StopServer` tolerates as "already exited". -/
def killErrReportsGone (e : String) : Bool :=
  strContains e "process already finished" || strContains e "no such process"

/-- Shallow embedding of `StopServer` (internal/git/git_server.go:131-160).
A `none` handle is a no-op; otherwise the real daemon pid is signalled and
the wrapper is waited on with its error discarded (`_ = serverCmd.Wait()`),
so `waitRes` is never consulted. -/
def StopServer (env : StopEnv) : Option ServerCmdM → Except String Unit
  | none => .ok ()
  | some sc =>
    if sc.actualPid > 0 then
      match env.findRes with
      | .error e =>
        .error ("failed to find process " ++ toString sc.actualPid ++ ": " ++ e)
      | .ok _ =>
        match env.killRes with
        | some e =>
          if !strContains e "process already finished" &&
             !strContains e "no such process" then
            .error ("failed to kill git server (PID " ++ toString sc.actualPid ++ "): " ++ e)
          else
            .ok ()
        | none => .ok ()
    else
      .ok ()

/-! ### Poll-loop lemmas -/

theorem parsePidInt_length_pos {d : String} {pid : Int}
    (h : parsePidInt d = some pid) : d.length ≠ 0 := by
  intro hl
  have hnil : d.toList = [] := by
    have : d.data.length = 0 := hl
    simpa [String.toList] using List.length_eq_zero.mp this
  rw [parsePidInt, hnil] at h
  simp at h

theorem pollLoop_step_bad (readFile : Nat → Except String String) (t fuel : Nat)
    (hb : badPidRead (readFile t)) :
    pollLoop readFile t (fuel + 1) = pollLoop readFile (t + 1) fuel := by
  rcases hb with ⟨e, he⟩ | ⟨d, hd, hbad⟩
  · simp [pollLoop, he]
  · rcases hbad with h0 | hp
    · simp [pollLoop, hd, h0]
    · by_cases hl : d.length = 0
      · simp [pollLoop, hd, hl]
      · simp [pollLoop, hd, hl, hp]

theorem pollLoop_timeout (readFile : Nat → Except String String) :
    ∀ fuel t, (∀ k, t ≤ k → k < t + fuel → badPidRead (readFile k)) →
    pollLoop readFile t fuel = .error "timeout waiting for PID file" := by
  intro fuel
  induction fuel with
  | zero => intro t _; rfl
  | succ n ih =>
    intro t h
    rw [pollLoop_step_bad _ _ _ (h t le_rfl (by omega))]
    exact ih (t + 1) (fun k hk1 hk2 => h k (by omega) (by omega))

theorem pollLoop_first_good (readFile : Nat → Except String String)
    {d : String} {pid : Int} :
    ∀ i t fuel, i < fuel →
    (∀ k, t ≤ k → k < t + i → badPidRead (readFile k)) →
    readFile (t + i) = .ok d → parsePidInt d = some pid →
    pollLoop readFile t fuel = .ok pid := by
  intro i
  induction i with
  | zero =>
    intro t fuel hfuel _ hok hparse
    cases fuel with
    | zero => omega
    | succ f =>
      have hlen : ¬ d.length = 0 := parsePidInt_length_pos hparse
      rw [Nat.add_zero] at hok
      simp [pollLoop, hok, hlen, hparse]
  | succ i ih =>
    intro t fuel hfuel hbad hok hparse
    cases fuel with
    | zero => omega
    | succ f =>
      rw [pollLoop_step_bad _ _ _ (hbad t le_rfl (by omega))]
      refine ih (t + 1) f (by omega) (fun k hk1 hk2 => hbad k (by omega) (by omega)) ?_ hparse
      rwa [show t + 1 + i = t + (i + 1) by omega]

theorem pollLoop_congr (f g : Nat → Except String String)
    (h : ∀ k, (badPidRead (f k) ∧ badPidRead (g k)) ∨ f k = g k) :
    ∀ fuel t, pollLoop f t fuel = pollLoop g t fuel := by
  intro fuel
  induction fuel with
  | zero => intro t; rfl
  | succ n ih =>
    intro t
    rcases h t with ⟨hf, hg⟩ | heq
    · rw [pollLoop_step_bad f t n hf, pollLoop_step_bad g t n hg]
      exact ih (t + 1)
    · simp only [pollLoop, heq]
      cases g t with
      | error e => exact ih (t + 1)
      | ok d =>
        by_cases hl : d.length = 0
        · simp only [hl, if_true]
          exact ih (t + 1)
        · simp only [hl, if_false]
          cases parsePidInt d with
          | none => exact ih (t + 1)
          | some pid => rfl

/-- C4: `pollForPidFile` treats a read error, an empty file and unparsable
content identically — each just causes the next poll — returns the parsed pid
of the first read that parses, and errors only when the poll budget is
exhausted without such a read. -/
theorem pollForPidFile_retry_semantics (readFile : Nat → Except String String)
    (T : Nat) :
    ((∀ t < T, badPidRead (readFile t)) →
      pollForPidFile readFile T = .error "timeout waiting for PID file")
  ∧ (∀ i d pid, i < T → (∀ t < i, badPidRead (readFile t)) →
      readFile i = .ok d → parsePidInt d = some pid →
      pollForPidFile readFile T = .ok pid)
  ∧ (∀ g : Nat → Except String String,
      (∀ k, (badPidRead (readFile k) ∧ badPidRead (g k)) ∨ readFile k = g k) →
      pollForPidFile readFile T = pollForPidFile g T) := by
  refine ⟨?_, ?_, ?_⟩
  · intro h
    exact pollLoop_timeout readFile T 0 (fun k _ hk => h k (by omega))
  · intro i d pid hi hbad hok hparse
    exact pollLoop_first_good readFile i 0 T hi
      (fun k _ hk => hbad k (by omega)) (by simpa using hok) hparse
  · intro g hg
    exact pollLoop_congr readFile g hg T 0

/-- Witness for C4: one failed read then a parsable read yields the parsed pid. -/
theorem pollForPidFile_retry_semantics_witness :
    pollForPidFile (fun t => if t = 0 then .error "no such file" else .ok "4242") 2 =
      .ok 4242 :=
  (pollForPidFile_retry_semantics _ 2).2.1 1 "4242" 4242 (by decide)
    (fun t ht => by
      have h0 : t = 0 := by omega
      subst h0
      exact Or.inl ⟨"no such file", rfl⟩)
    rfl (by decide)

/-! ### StartServer retry lemmas -/

theorem startServerGo_success (tries : Nat → TryEnv) (rands : Nat → Nat)
    (cmd : ServerCmdM) :
    ∀ i attempt fuel lastE, i < fuel →
    (∀ j < i, ∃ e,
      (tryStartServer (tries (attempt + j)) (randomPort (rands (attempt + j)))).1 = .error e) →
    (tryStartServer (tries (attempt + i)) (randomPort (rands (attempt + i)))).1 = .ok cmd →
    startServerGo tries rands attempt fuel lastE =
      .ok (cmd, randomPort (rands (attempt + i))) := by
  intro i
  induction i with
  | zero =>
    intro attempt fuel lastE hfuel _ hok
    cases fuel with
    | zero => omega
    | succ f =>
      rw [Nat.add_zero] at hok
      simp [startServerGo, hok]
  | succ i ih =>
    intro attempt fuel lastE hfuel hfail hok
    cases fuel with
    | zero => omega
    | succ f =>
      obtain ⟨e, he⟩ := hfail 0 (by omega)
      rw [Nat.add_zero] at he
      simp only [startServerGo, he]
      have hok2 :
          (tryStartServer (tries (attempt + 1 + i)) (randomPort (rands (attempt + 1 + i)))).1 =
            .ok cmd := by
        rwa [show attempt + 1 + i = attempt + (i + 1) by omega]
      have := ih (attempt + 1) f (some e) (by omega)
        (fun j hj => by
          obtain ⟨e2, he2⟩ := hfail (j + 1) (by omega)
          exact ⟨e2, by rwa [show attempt + 1 + j = attempt + (j + 1) by omega]⟩)
        hok2
      rw [this, show attempt + 1 + i = attempt + (i + 1) by omega]

theorem startServerGo_unfold (tries : Nat → TryEnv) (rands : Nat → Nat)
    (attempt fuel : Nat) (lastE : Option String) :
    startServerGo tries rands attempt (fuel + 1) lastE =
      match (tryStartServer (tries attempt) (randomPort (rands attempt))).1 with
      | .ok cmd => .ok (cmd, randomPort (rands attempt))
      | .error e => startServerGo tries rands (attempt + 1) fuel (some e) := rfl

theorem startServerGo_allfail (tries : Nat → TryEnv) (rands : Nat → Nat)
    (errs : Nat → String) :
    ∀ fuel attempt lastE, 0 < fuel →
    (∀ j < fuel,
      (tryStartServer (tries (attempt + j)) (randomPort (rands (attempt + j)))).1 =
        .error (errs (attempt + j))) →
    startServerGo tries rands attempt fuel lastE =
      .error ("failed to start git server after " ++ toString maxRetries ++
        " attempts: " ++ errs (attempt + fuel - 1)) := by
  intro fuel
  induction fuel with
  | zero => intro attempt lastE h; omega
  | succ f ih =>
    intro attempt lastE _ hfail
    have h0 := hfail 0 (by omega)
    rw [Nat.add_zero] at h0
    cases f with
    | zero =>
      simp [startServerGo, h0, Option.getD]
    | succ f2 =>
      have hstep :
          startServerGo tries rands attempt (f2 + 1 + 1) lastE =
            startServerGo tries rands (attempt + 1) (f2 + 1) (some (errs attempt)) := by
        rw [startServerGo_unfold, h0]
      rw [hstep]
      have := ih (attempt + 1) (some (errs attempt)) (by omega)
        (fun j hj => by
          have := hfail (j + 1) (by omega)
          rwa [show attempt + 1 + j = attempt + (j + 1) by omega])
      rw [this, show attempt + 1 + (f2 + 1) - 1 = attempt + (f2 + 1 + 1) - 1 by omega]

/-- C3: `StartServer` makes at most `maxRetries` (10) attempts; a success at
the first succeeding attempt is returned as is (later attempts are never
consulted, so two environments agreeing up to that attempt give the same
result); if all ten attempts fail the terminal error wraps the last attempt's
failure; and an attempt whose daemon started but whose readiness poll failed
kills the spawned process and removes the readiness file before returning to
the retry loop. -/
theorem startServer_retry_budget :
    (∀ tries rands i cmd, i < maxRetries →
      (∀ j < i, ∃ e, (tryStartServer (tries j) (randomPort (rands j))).1 = .error e) →
      (tryStartServer (tries i) (randomPort (rands i))).1 = .ok cmd →
      StartServer tries rands = .ok (cmd, randomPort (rands i)))
  ∧ (∀ tries tries2 rands rands2 i cmd, i < maxRetries →
      (∀ j ≤ i, tries j = tries2 j ∧ rands j = rands2 j) →
      (∀ j < i, ∃ e, (tryStartServer (tries j) (randomPort (rands j))).1 = .error e) →
      (tryStartServer (tries i) (randomPort (rands i))).1 = .ok cmd →
      StartServer tries rands = StartServer tries2 rands2)
  ∧ (∀ (tries : Nat → TryEnv) (rands : Nat → Nat) (errs : Nat → String),
      (∀ j < maxRetries,
        (tryStartServer (tries j) (randomPort (rands j))).1 = .error (errs j)) →
      StartServer tries rands =
        .error ("failed to start git server after " ++ toString maxRetries ++
          " attempts: " ++ errs (maxRetries - 1)))
  ∧ (∀ env port e, env.createTempRes = .ok () → env.startRes = none →
      env.pollRes = .error e →
      tryStartServer env port =
        (.error ("failed to start git server on port " ++ toString port ++ ": " ++ e),
         [.createTemp, .procStart, .procKill, .procWait, .removeFile])) := by
  have hsucc : ∀ (tries : Nat → TryEnv) (rands : Nat → Nat) (i : Nat) (cmd : ServerCmdM),
      i < maxRetries →
      (∀ j < i, ∃ e, (tryStartServer (tries j) (randomPort (rands j))).1 = .error e) →
      (tryStartServer (tries i) (randomPort (rands i))).1 = .ok cmd →
      StartServer tries rands = .ok (cmd, randomPort (rands i)) := by
    intro tries rands i cmd hi hfail hok
    have := startServerGo_success tries rands cmd i 0 maxRetries none hi
      (fun j hj => by simpa using hfail j hj) (by simpa using hok)
    simpa [StartServer] using this
  refine ⟨hsucc, ?_, ?_, ?_⟩
  · intro tries tries2 rands rands2 i cmd hi hagree hfail hok
    have h1 := hsucc tries rands i cmd hi hfail hok
    have h2 := hsucc tries2 rands2 i cmd hi
      (fun j hj => by
        obtain ⟨e, he⟩ := hfail j hj
        exact ⟨e, by rw [← (hagree j (by omega)).1, ← (hagree j (by omega)).2]; exact he⟩)
      (by rw [← (hagree i le_rfl).1, ← (hagree i le_rfl).2]; exact hok)
    rw [h1, h2, (hagree i le_rfl).2]
  · intro tries rands errs hfail
    have := startServerGo_allfail tries rands errs maxRetries 0 none (by decide)
      (fun j hj => by simpa using hfail j hj)
    simpa [StartServer] using this
  · intro env port e h1 h2 h3
    simp [tryStartServer, h1, h2, h3]

/-- Witness for C3: an immediately succeeding first attempt. -/
theorem startServer_retry_budget_witness :
    StartServer (fun _ => ⟨.ok (), none, .ok 77⟩) (fun _ => 0) =
      .ok ({ actualPid := 77, hasCmd := true }, 2001) :=
  startServer_retry_budget.1 (fun _ => ⟨.ok (), none, .ok 77⟩) (fun _ => 0) 0
    { actualPid := 77, hasCmd := true } (by decide)
    (fun j hj => absurd hj (by omega)) rfl

/-- C6: `StopServer` is nil-safe and tolerates an already-exited daemon: a
`none` handle is a no-op, a clean kill returns no error, and a kill whose
error reports `process already finished` or `no such process` — the situation
of a second stop of the same handle — also returns no error (the wrapper
`Wait()` result is discarded by the source, so a repeated wait cannot fail
either). -/
theorem stopServer_idempotent_nil_safe :
    (∀ env, StopServer env none = .ok ())
  ∧ (∀ env sc, env.findRes = .ok () → env.killRes = none →
      StopServer env (some sc) = .ok ())
  ∧ (∀ env sc e, env.findRes = .ok () → env.killRes = some e →
      killErrReportsGone e = true → StopServer env (some sc) = .ok ()) := by
  refine ⟨fun env => rfl, ?_, ?_⟩
  · intro env sc h1 h2
    by_cases hp : sc.actualPid > 0 <;> simp [StopServer, h1, h2, hp]
  · intro env sc e h1 h2 hgone
    rcases Bool.or_eq_true _ _ |>.mp hgone with hc | hc <;>
      by_cases hp : sc.actualPid > 0 <;> simp [StopServer, h1, h2, hp, hc]

/-- Witness for C6: a second stop in which the daemon is already gone. -/
theorem stopServer_idempotent_nil_safe_witness :
    StopServer ⟨.ok (), some "os: process already finished", none⟩
      (some { actualPid := 4242, hasCmd := true }) = .ok () :=
  stopServer_idempotent_nil_safe.2.2 ⟨.ok (), some "os: process already finished", none⟩
    { actualPid := 4242, hasCmd := true } "os: process already finished"
    rfl rfl (by decide)

/-! ## postClaudeMenu (internal/innie/innie.go:192-245)

One loop iteration: query `IsWorkspaceDirty`, print the menu, read one
choice, dispatch.  The injected environment gives, per iteration index, the
dirty query result and the outcomes of the four actions: `commitRes` is
`executeClaude("Commit the changes", ...)`, `diffRes` is `runDiffreviewer`,
`shellRes` is `startShell`, `restartRes` is the interactive
`executeClaude(os.Args[len(os.Args)-1], ...)`.  Terminal input is the list of
choices, one consumed per iteration; `none` means the loop would read beyond
the supplied input. -/

structure MenuEnv where
  dirty : Nat → Except String Bool
  commitRes : Nat → Except String Unit
  diffRes : Nat → Except String Unit
  shellRes : Nat → Except String Unit
  restartRes : Nat → Except String Unit

def menuGo (env : MenuEnv) : Nat → List String → Option (Except String Unit)
  | k, choices =>
    match env.dirty k with
    | .error e => some (.error ("failed to check workspace status: " ++ e))
    | .ok dirty =>
      match choices with
      | [] => none
      | choice :: rest =>
        if choice = "c" then
          some (env.commitRes k)
        else if choice = "d" then
          match env.diffRes k with
          | .error _ => menuGo env (k + 1) rest
          | .ok _ => menuGo env (k + 1) rest
        else if choice = "s" then
          match env.shellRes k with
          | .error _ => menuGo env (k + 1) rest
          | .ok _ => menuGo env (k + 1) rest
        else if choice = "r" then
          some (env.restartRes k)
        else if choice = "x" then
          if dirty then menuGo env (k + 1) rest
          else some (.ok ())
        else
          menuGo env (k + 1) rest

def postClaudeMenu (env : MenuEnv) (choices : List String) :
    Option (Except String Unit) :=
  menuGo env 0 choices

/-- Environment in which the workspace is dirty at every query and every
action succeeds. -/
def dirtyMenuEnv : MenuEnv where
  dirty := fun _ => .ok true
  commitRes := fun _ => .ok ()
  diffRes := fun _ => .ok ()
  shellRes := fun _ => .ok ()
  restartRes := fun _ => .ok ()

/-- Counterexample to C1: with the workspace dirty at every query, choosing
`c` (ask Claude to commit) makes `postClaudeMenu` return success immediately
after the action, with no further dirty-state check — so the menu returns nil
(allowing the push) although the most recent dirty-state query reported the
workspace dirty. -/
theorem postClaudeMenu_commit_exits_while_dirty :
    postClaudeMenu dirtyMenuEnv ["c"] = some (.ok ())
  ∧ (∀ k, dirtyMenuEnv.dirty k = .ok true) :=
  ⟨rfl, fun _ => rfl⟩

/-- C1 (amended): each iteration of the menu loop re-queries the dirty state
first; the `d` (review) and `s` (shell) actions return to the loop whatever
their outcome, so they are followed by a fresh dirty check; choosing `x`
while the query reported dirty re-presents the menu, and `x` returns nil only
when the query preceding it reported clean; but `c` (commit) and `r`
(restart) return immediately with their action's result and no subsequent
dirty re-check, so the push can be reached without a clean re-check. -/
theorem postClaudeMenu_loop_behaviour (env : MenuEnv) (k : Nat)
    (rest : List String) :
    (∀ b, env.dirty k = .ok b →
        menuGo env k ("d" :: rest) = menuGo env (k + 1) rest
      ∧ menuGo env k ("s" :: rest) = menuGo env (k + 1) rest)
  ∧ (env.dirty k = .ok true → menuGo env k ("x" :: rest) = menuGo env (k + 1) rest)
  ∧ (env.dirty k = .ok false → menuGo env k ("x" :: rest) = some (.ok ()))
  ∧ (∀ b, env.dirty k = .ok b →
        menuGo env k ("c" :: rest) = some (env.commitRes k)
      ∧ menuGo env k ("r" :: rest) = some (env.restartRes k))
  ∧ (∀ e, env.dirty k = .error e →
      menuGo env k ("x" :: rest) =
        some (.error ("failed to check workspace status: " ++ e))) := by
  refine ⟨?_, ?_, ?_, ?_, ?_⟩
  · intro b hb
    constructor
    · cases hd : env.diffRes k <;> (rw [menuGo, hb, hd]; rfl)
    · cases hs : env.shellRes k <;> (rw [menuGo, hb, hs]; rfl)
  · intro hb; rw [menuGo, hb]; rfl
  · intro hb; rw [menuGo, hb]; rfl
  · intro b hb; exact ⟨by rw [menuGo, hb]; rfl, by rw [menuGo, hb]; rfl⟩
  · intro e he; rw [menuGo, he]

/-- Witness for the amended C1: with a clean workspace, `x` exits with nil. -/
theorem postClaudeMenu_loop_behaviour_witness :
    menuGo { dirtyMenuEnv with dirty := fun _ => .ok false } 0 ["x"] =
      some (.ok ()) :=
  (postClaudeMenu_loop_behaviour
    { dirtyMenuEnv with dirty := fun _ => .ok false } 0 []).2.2.1 rfl

/-! ## outie.Run (internal/outie/outie.go)

The orchestrator's collaborator calls are injected through `OutieEnv` and the
calls actually made are recorded, in order, as `OEv` events.  Terminal-title
handling and all printing are display-only and not modelled.  The deferred
`git.StopServer` of the source runs at every return after a successful
`StartServer`, so `evStopServer` closes every such trace; its error is only
printed as a warning, so `stopErr` is never consulted. -/

inductive OEv where
  | evDirtyCheck
  | evBranchExists
  | evCreateBranch
  | evStartServer
  | evBuildImage
  | evRunContainer
  | evRemoveContainer
  | evCommitRange
  | evStopServer
deriving DecidableEq, Repr

/-- The fields of `outie.Config` that steer control flow (`TaskID` reaches
the branch and container names; the remaining string fields only feed
collaborator arguments and prints). -/
structure OutieConfig where
  taskID : String
  existingBranch : Bool
  allowDirty : Bool

structure OutieEnv where
  projectRoot : Except String String
  chdirErr : Option String
  tokenSet : Bool
  isDirty : Except String Bool
  branchExists : Except String Bool
  createBranch : Except String Unit
  startServer : Except String (ServerCmdM × Nat)
  buildImage : Except String Unit
  runContainer : Int × Option String
  removeContainer : Except String Unit
  commitRange : Except String (String × String)
  stopErr : Option String

def branchNameOf (cfg : OutieConfig) : String := "giverny/" ++ cfg.taskID

/-- Branch creation / validation step of `outie.Run` (outie.go:64-82). -/
def branchStep (cfg : OutieConfig) (env : OutieEnv) (evs : List OEv) :
    Except String Unit × List OEv :=
  if cfg.existingBranch then
    match env.branchExists with
    | .error e =>
      (.error ("failed to check if branch exists: " ++ e), evs ++ [.evBranchExists])
    | .ok false =>
      (.error ("branch " ++ quoteStr ++ branchNameOf cfg ++ quoteStr ++ " does not exist"),
       evs ++ [.evBranchExists])
    | .ok true => (.ok (), evs ++ [.evBranchExists])
  else
    match env.createBranch with
    | .error e => (.error ("failed to create branch: " ++ e), evs ++ [.evCreateBranch])
    | .ok _ => (.ok (), evs ++ [.evCreateBranch])

/-- `outie.Run` up to and including the branch step (outie.go:39-82):
project root, chdir, credential check, the host-side dirty gate, then branch
creation or validation. -/
def outiePrelude (cfg : OutieConfig) (env : OutieEnv) :
    Except String Unit × List OEv :=
  match env.projectRoot with
  | .error e => (.error ("failed to find project root: " ++ e), [])
  | .ok _ =>
    match env.chdirErr with
    | some e => (.error ("failed to change to project root: " ++ e), [])
    | none =>
      if env.tokenSet then
        if !cfg.allowDirty && !cfg.existingBranch then
          match env.isDirty with
          | .error e =>
            (.error ("failed to check workspace status: " ++ e), [.evDirtyCheck])
          | .ok true =>
            (.error "working directory has uncommitted changes. Commit or stash them first, or use --allow-dirty flag",
             [.evDirtyCheck])
          | .ok false => branchStep cfg env [.evDirtyCheck]
        else branchStep cfg env []
      else
        (.error "CLAUDE_CODE_OAUTH_TOKEN environment variable is not set.\nPlease set it with: export CLAUDE_CODE_OAUTH_TOKEN=your-token",
         [])

/-- `outie.Run` after a successful `StartServer` (outie.go:99-172): image
build, container run, and on success container removal and commit-range
resolution, both downgraded to warnings on failure. -/
def outieAfterServer (env : OutieEnv) : Except String Unit × List OEv :=
  match env.buildImage with
  | .error e => (.error ("failed to build image: " ++ e), [.evBuildImage])
  | .ok _ =>
    let rc := env.runContainer
    if rc.2.isSome || rc.1 ≠ 0 then
      match rc.2 with
      | some e => (.error ("container failed: " ++ e), [.evBuildImage, .evRunContainer])
      | none =>
        (.error ("container exited with code " ++ toString rc.1),
         [.evBuildImage, .evRunContainer])
    else
      (.ok (), [.evBuildImage, .evRunContainer, .evRemoveContainer, .evCommitRange])

/-- Shallow embedding of `outie.Run` (outie.go:27-173). -/
def outieRun (cfg : OutieConfig) (env : OutieEnv) :
    Except String Unit × List OEv :=
  match outiePrelude cfg env with
  | (.error e, evs) => (.error e, evs)
  | (.ok _, evs) =>
    match env.startServer with
    | .error e => (.error ("failed to start git server: " ++ e), evs ++ [.evStartServer])
    | .ok _ =>
      let after := outieAfterServer env
      (after.1, evs ++ [.evStartServer] ++ after.2 ++ [.evStopServer])

theorem evRemoveContainer_not_mem_branchStep (cfg : OutieConfig) (env : OutieEnv)
    (evs : List OEv) (h : OEv.evRemoveContainer ∉ evs) :
    OEv.evRemoveContainer ∉ (branchStep cfg env evs).2 := by
  unfold branchStep
  split <;> [skip; skip] <;> split <;> simp_all

theorem evRemoveContainer_not_mem_prelude (cfg : OutieConfig) (env : OutieEnv) :
    OEv.evRemoveContainer ∉ (outiePrelude cfg env).2 := by
  unfold outiePrelude
  split
  · simp
  · split
    · simp
    · split
      · split
        · split <;> first
            | simp
            | exact evRemoveContainer_not_mem_branchStep cfg env _ (by simp)
        · exact evRemoveContainer_not_mem_branchStep cfg env _ (by simp)
      · simp

/-- C7: with `ExistingBranch = false` and `AllowDirty = false`, a dirty
host-side workspace makes `outie.Run` fail with the pre-condition error after
the single dirty check — in particular `CreateBranch` is never invoked — and
with the workspace clean the same configuration proceeds to invoke
`CreateBranch`. -/
theorem outieRun_dirty_gate (cfg : OutieConfig) (env : OutieEnv)
    (hmode : cfg.existingBranch = false) (hallow : cfg.allowDirty = false)
    (hroot : ∃ p, env.projectRoot = .ok p) (hchdir : env.chdirErr = none)
    (htoken : env.tokenSet = true) :
    (env.isDirty = .ok true →
      outieRun cfg env =
        (.error "working directory has uncommitted changes. Commit or stash them first, or use --allow-dirty flag",
         [.evDirtyCheck]))
  ∧ (env.isDirty = .ok false → OEv.evCreateBranch ∈ (outieRun cfg env).2) := by
  obtain ⟨p, hp⟩ := hroot
  constructor
  · intro hd
    have hpe : outiePrelude cfg env =
        (.error "working directory has uncommitted changes. Commit or stash them first, or use --allow-dirty flag",
         [.evDirtyCheck]) := by
      simp [outiePrelude, hp, hchdir, htoken, hmode, hallow, hd]
    simp [outieRun, hpe]
  · intro hd
    have hpe : outiePrelude cfg env = branchStep cfg env [.evDirtyCheck] := by
      simp [outiePrelude, hp, hchdir, htoken, hmode, hallow, hd]
    cases hcb : env.createBranch with
    | error e =>
      have hbs : branchStep cfg env [.evDirtyCheck] =
          (.error ("failed to create branch: " ++ e),
           [.evDirtyCheck, .evCreateBranch]) := by
        simp [branchStep, hmode, hcb]
      simp [outieRun, hpe, hbs]
    | ok u =>
      have hbs : branchStep cfg env [.evDirtyCheck] =
          (.ok (), [.evDirtyCheck, .evCreateBranch]) := by
        simp [branchStep, hmode, hcb]
      cases hs : env.startServer with
      | error e2 => simp [outieRun, hpe, hbs, hs]
      | ok sp => simp [outieRun, hpe, hbs, hs]

/-- Witness environment for C7: dirty host workspace, everything else fine. -/
def gateEnvDirty : OutieEnv where
  projectRoot := .ok "/repo"
  chdirErr := none
  tokenSet := true
  isDirty := .ok true
  branchExists := .ok false
  createBranch := .ok ()
  startServer := .ok ({ actualPid := 7, hasCmd := true }, 3000)
  buildImage := .ok ()
  runContainer := (0, none)
  removeContainer := .ok ()
  commitRange := .ok ("", "")
  stopErr := none

theorem outieRun_dirty_gate_witness :
    outieRun ⟨"demo-1", false, false⟩ gateEnvDirty =
      (.error "working directory has uncommitted changes. Commit or stash them first, or use --allow-dirty flag",
       [.evDirtyCheck]) :=
  (outieRun_dirty_gate ⟨"demo-1", false, false⟩ gateEnvDirty rfl rfl
    ⟨"/repo", rfl⟩ rfl rfl).1 rfl

/-- C8: when the run reaches the container phase, worker success (exit 0, no
error) removes the container and then resolves the commit range — whatever
those two collaborators return, `Run` still returns nil — while on any worker
failure the container is not removed and the returned error surfaces the exit
code or wraps the run error. -/
theorem outieRun_worker_outcome (cfg : OutieConfig) (env : OutieEnv)
    (hpre : (outiePrelude cfg env).1 = .ok ())
    (hsrv : ∃ sp, env.startServer = .ok sp)
    (hbuild : env.buildImage = .ok ()) :
    (env.runContainer = (0, none) →
      (outieRun cfg env).1 = .ok ()
      ∧ ∃ l, (outieRun cfg env).2 =
          l ++ [.evRunContainer, .evRemoveContainer, .evCommitRange, .evStopServer])
  ∧ (∀ ec, ec ≠ 0 → env.runContainer = (ec, none) →
      (outieRun cfg env).1 = .error ("container exited with code " ++ toString ec)
      ∧ OEv.evRemoveContainer ∉ (outieRun cfg env).2)
  ∧ (∀ ec e, env.runContainer = (ec, some e) →
      (outieRun cfg env).1 = .error ("container failed: " ++ e)
      ∧ OEv.evRemoveContainer ∉ (outieRun cfg env).2) := by
  obtain ⟨sp, hs⟩ := hsrv
  have hpe : outiePrelude cfg env = (.ok (), (outiePrelude cfg env).2) := by
    rw [← hpre]
  have hrun : outieRun cfg env =
      ((outieAfterServer env).1,
       (outiePrelude cfg env).2 ++ [.evStartServer] ++ (outieAfterServer env).2 ++
         [.evStopServer]) := by
    conv_lhs => rw [outieRun, hpe, hs]
  have hnp := evRemoveContainer_not_mem_prelude cfg env
  refine ⟨?_, ?_, ?_⟩
  · intro hrc
    constructor
    · rw [hrun]
      simp [outieAfterServer, hbuild, hrc]
    · refine ⟨(outiePrelude cfg env).2 ++ [.evStartServer, .evBuildImage], ?_⟩
      rw [hrun]
      simp [outieAfterServer, hbuild, hrc]
  · intro ec hne hrc
    constructor
    · rw [hrun]
      simp [outieAfterServer, hbuild, hrc, hne]
    · rw [hrun]
      simp [outieAfterServer, hbuild, hrc, hne, hnp]
  · intro ec e hrc
    constructor
    · rw [hrun]
      simp [outieAfterServer, hbuild, hrc]
    · rw [hrun]
      simp [outieAfterServer, hbuild, hrc, hnp]

/-- Witness environment for C8: a successful worker run. -/
def workerEnvOk : OutieEnv :=
  { gateEnvDirty with isDirty := .ok false }

theorem outieRun_worker_outcome_witness :
    (outieRun ⟨"demo-1", false, false⟩ workerEnvOk).1 = .ok ()
  ∧ ∃ l, (outieRun ⟨"demo-1", false, false⟩ workerEnvOk).2 =
      l ++ [.evRunContainer, .evRemoveContainer, .evCommitRange, .evStopServer] :=
  (outieRun_worker_outcome ⟨"demo-1", false, false⟩ workerEnvOk rfl
    ⟨({ actualPid := 7, hasCmd := true }, 3000), rfl⟩ rfl).1 rfl

/-! ## GetBranchCommitRange (internal/git/branch.go:53-131)

Go strings handled by the resolver are modelled as `List Char` (`GoStr`), so
that `strings.TrimSpace` and `strings.Split(s, "\n")` are structural
recursions.  The four git subcommands the function shells out to are an
oracle (`GitOps`); `gitOpsOfRepo` implements the oracle over a concrete
repository model with single-parent commit chains. -/

abbrev GoStr := List Char

def sLit (s : String) : GoStr := s.toList

/-- ASCII whitespace as trimmed by `strings.TrimSpace`. -/
def isSpaceChar (c : Char) : Bool :=
  c = ' ' || c = '\t' || c = '\n' || c = '\x0b' || c = '\x0c' || c = '\r'

def goTrimSpace (s : GoStr) : GoStr :=
  ((s.dropWhile isSpaceChar).reverse.dropWhile isSpaceChar).reverse

/-- `strings.Split(s, "\n")`. -/
def splitNl : GoStr → List GoStr
  | [] => [[]]
  | c :: rest =>
    match splitNl rest with
    | [] => [[c]]
    | g :: gs => if c = '\n' then [] :: g :: gs else (c :: g) :: gs

/-- Raw output of a git command printing one hash per line: each line is
terminated by a newline. -/
def catLines : List GoStr → GoStr
  | [] => []
  | h :: t => h ++ '\n' :: catLines t

/-- The same lines joined by newlines without the trailing one (the result
of trimming `catLines`). -/
def interNl : List GoStr → GoStr
  | [] => []
  | [h] => h
  | h :: t => h ++ '\n' :: interNl t

/-- Oracle of the git subcommands used by `GetBranchCommitRange`:
`git rev-parse <branch>`, `git rev-parse --verify <label>`,
`git rev-list --reverse <fromHash>..<branch>`, `git merge-base <a> <b>`.
Each returns the command's raw stdout. -/
structure GitOps where
  revParse : GoStr → Except String GoStr
  revParseVerify : GoStr → Except String GoStr
  revListReverse : GoStr → GoStr → Except String GoStr
  mergeBase : GoStr → GoStr → Except String GoStr

/-- Shallow embedding of `GetBranchCommitRange` (branch.go:53-131): resolve
the branch tip; if the `<branch>-START` label exists list the commits after
it, otherwise fall back to the merge-base with the hard-coded parent branch
`main`; empty output (or a failed merge-base, or a merge-base equal to the
tip) yields the empty range. -/
def GetBranchCommitRange (g : GitOps) (branchName : GoStr) :
    Except String (GoStr × GoStr) :=
  match g.revParse branchName with
  | .error e =>
    .error ("failed to get last commit for branch " ++ quoteStr ++
      String.mk branchName ++ quoteStr ++ ": " ++ e)
  | .ok out =>
    let lastCommit := goTrimSpace out
    let startLabel := branchName ++ sLit "-START"
    match g.revParseVerify startLabel with
    | .ok out2 =>
      let startCommit := goTrimSpace out2
      match g.revListReverse startCommit branchName with
      | .error e => .error ("failed to get commits after START label: " ++ e)
      | .ok out3 =>
        let commits := goTrimSpace out3
        if commits = [] then .ok ([], [])
        else .ok ((splitNl commits).headD [], lastCommit)
    | .error _ =>
      let parentBranch := sLit "main"
      match g.mergeBase parentBranch branchName with
      | .error _ => .ok ([], [])
      | .ok out4 =>
        let mergeBase := goTrimSpace out4
        if mergeBase = lastCommit then .ok ([], [])
        else
          match g.revListReverse mergeBase branchName with
          | .error e => .error ("failed to get commits after merge-base: " ++ e)
          | .ok out5 =>
            let commits := goTrimSpace out5
            if commits = [] then .ok ([], [])
            else .ok ((splitNl commits).headD [], lastCommit)

/-! ### Concrete repository model

`commits` lists all commit hashes in chronological order (index = commit
time); `parentIdx` is the single-parent ancestry on indices (a well-formed
repo has parents strictly earlier); `refs` maps ref names to commit indices;
`upstreams` records any upstream-tracking configuration — present in the
model precisely to prove that the resolver never consults it. -/

structure Repo where
  commits : List GoStr
  parentIdx : Nat → Option Nat
  refs : List (GoStr × Nat)
  upstreams : List (GoStr × GoStr)

def hashAt (r : Repo) (i : Nat) : GoStr := r.commits.getD i []

def lookupIdx (r : Repo) (name : GoStr) : Option Nat :=
  (r.refs.find? (fun p => decide (p.1 = name))).map (·.2)

/-- Ancestor chain of index `i` (most recent first), with explicit fuel;
`anc` uses fuel `i`, which suffices when parents are strictly earlier.  The
chain depends only on the parent function, so ancestry is unaffected by the
`upstreams` table. -/
def ancIdx (par : Nat → Option Nat) : Nat → Nat → List Nat
  | 0, i => [i]
  | fuel + 1, i =>
    i :: (match par i with
          | none => []
          | some j => ancIdx par fuel j)

def anc (r : Repo) (i : Nat) : List Nat := ancIdx r.parentIdx i i

/-- Indices of commits reachable from `tIdx` but not from `fIdx`, in reverse
chronological order: the semantics of `git rev-list fence..branch`. -/
def newIdxs (r : Repo) (fIdx tIdx : Nat) : List Nat :=
  (anc r tIdx).filter (fun i => decide (i ∉ anc r fIdx))

/-- Best common ancestor of two indices — for single-parent chains the
chronologically latest common element: the semantics of `git merge-base`. -/
def commonAnc (r : Repo) (aIdx bIdx : Nat) : Option Nat :=
  ((anc r aIdx).filter (fun i => decide (i ∈ anc r bIdx))).head?

/-- Index of a hash in the commit list (first occurrence), how the oracle
resolves a raw hash argument. -/
def idxOfHash : List GoStr → GoStr → Option Nat
  | [], _ => none
  | x :: xs, h => if x = h then some 0 else (idxOfHash xs h).map (· + 1)

/-- The git oracle over a model repository.  `rev-list --reverse A..B`
resolves `B` as a ref and `A` as a hash (the resolver passes it the trimmed
output of an earlier `rev-parse`), and prints the new commits oldest first,
one per line.  `upstreams` is not consulted anywhere. -/
def gitOpsOfRepo (r : Repo) : GitOps where
  revParse := fun name =>
    match lookupIdx r name with
    | some i => .ok (hashAt r i ++ ['\n'])
    | none => .error "unknown revision"
  revParseVerify := fun name =>
    match lookupIdx r name with
    | some i => .ok (hashAt r i ++ ['\n'])
    | none => .error "needed a single revision"
  revListReverse := fun fromHash branch =>
    match lookupIdx r branch with
    | none => .error "bad revision"
    | some tIdx =>
      match idxOfHash r.commits fromHash with
      | none => .error "bad revision"
      | some fIdx =>
        .ok (catLines (((newIdxs r fIdx tIdx).reverse).map (hashAt r)))
  mergeBase := fun a b =>
    match lookupIdx r a, lookupIdx r b with
    | some ai, some bi =>
      match commonAnc r ai bi with
      | some m => .ok (hashAt r m ++ ['\n'])
      | none => .error "exit status 1"
    | _, _ => .error "bad revision"

/-- A plausible commit hash: nonempty and free of whitespace (in particular
free of newlines). -/
def hashOk (h : GoStr) : Prop :=
  h ≠ [] ∧ ∀ c ∈ h, isSpaceChar c = false

/-- Well-formed repository: distinct plausible hashes, refs in range, and
parents strictly earlier in chronological order. -/
structure RepoWF (r : Repo) : Prop where
  nodup : r.commits.Nodup
  hashesOk : ∀ h ∈ r.commits, hashOk h
  refsLt : ∀ p ∈ r.refs, p.2 < r.commits.length
  parentLt : ∀ i, i < r.commits.length → ∀ j, r.parentIdx i = some j → j < i

/-! ### String round-trip lemmas -/

theorem goTrimSpace_wrap (x : GoStr) (hne : x ≠ [])
    (hh : ∀ c, x.head? = some c → isSpaceChar c = false)
    (hl : ∀ c, x.getLast? = some c → isSpaceChar c = false) :
    goTrimSpace (x ++ ['\n']) = x := by
  cases x with
  | nil => exact absurd rfl hne
  | cons a x' =>
    have ha : isSpaceChar a = false := hh a rfl
    unfold goTrimSpace
    have h1 : List.dropWhile isSpaceChar ((a :: x') ++ ['\n']) = (a :: x') ++ ['\n'] := by
      rw [List.cons_append, List.dropWhile_cons, ha]
      simp
    rw [h1]
    have h2 : ((a :: x') ++ ['\n']).reverse = '\n' :: (a :: x').reverse := by
      simp
    rw [h2, List.dropWhile_cons]
    simp only [show isSpaceChar '\n' = true from rfl, if_true]
    obtain ⟨c, ys, hy⟩ : ∃ c ys, (a :: x').reverse = c :: ys := by
      cases hrev : (a :: x').reverse with
      | nil => simp at hrev
      | cons c ys => exact ⟨c, ys, rfl⟩
    have hcg : (a :: x').getLast? = some c := by
      rw [← List.head?_reverse, hy]; rfl
    have hc : isSpaceChar c = false := hl c hcg
    rw [hy, List.dropWhile_cons, hc]
    simp [← hy]

theorem interNl_facts : ∀ (hs : List GoStr), hs ≠ [] → (∀ h ∈ hs, hashOk h) →
    interNl hs ≠ []
  ∧ (∀ c, (interNl hs).head? = some c → isSpaceChar c = false)
  ∧ (∀ c, (interNl hs).getLast? = some c → isSpaceChar c = false) := by
  intro hs
  induction hs with
  | nil => intro h; exact absurd rfl h
  | cons h t ih =>
    intro _ hok
    have hOk := hok h (by simp)
    cases t with
    | nil =>
      refine ⟨hOk.1, ?_, ?_⟩
      · intro c hc
        have hhd : h.head? = some c := by simpa [interNl] using hc
        exact hOk.2 c (List.mem_of_mem_head? (by rw [hhd]; rfl))
      · intro c hc
        have hgl : h.reverse.head? = some c := by
          rw [List.head?_reverse]
          simpa [interNl] using hc
        have hm : c ∈ h.reverse := List.mem_of_mem_head? (by rw [hgl]; rfl)
        exact hOk.2 c (by simpa using hm)
    | cons h2 t2 =>
      have iht := ih (by simp) (fun x hx => hok x (by simp [hx]))
      have hint : interNl (h :: h2 :: t2) = h ++ '\n' :: interNl (h2 :: t2) := rfl
      refine ⟨by simp [hint, hOk.1], ?_, ?_⟩
      · intro c hc
        rw [hint] at hc
        obtain ⟨a, h', rfl⟩ : ∃ a h', h = a :: h' := by
          cases h with
          | nil => exact absurd rfl hOk.1
          | cons a h' => exact ⟨a, h', rfl⟩
        simp only [List.cons_append, List.head?_cons, Option.some.injEq] at hc
        exact hOk.2 c (by simp [← hc])
      · intro c hc
        rw [hint] at hc
        obtain ⟨y, ys, hys⟩ : ∃ y ys, interNl (h2 :: t2) = y :: ys := by
          cases hX : interNl (h2 :: t2) with
          | nil => exact absurd hX iht.1
          | cons y ys => exact ⟨y, ys, rfl⟩
        rw [hys, List.getLast?_append] at hc
        have hcons : ('\n' :: y :: ys).getLast? = (y :: ys).getLast? := by
          simp [List.getLast?_cons_cons]
        rw [hcons] at hc
        have hsome : (y :: ys).getLast?.isSome = true := by
          rw [List.getLast?_eq_getLast (y :: ys) (by simp)]
          rfl
        rw [Option.or_of_isSome hsome] at hc
        exact iht.2.2 c (by rw [hys]; exact hc)

theorem catLines_eq_interNl (hs : List GoStr) (hne : hs ≠ []) :
    catLines hs = interNl hs ++ ['\n'] := by
  induction hs with
  | nil => exact absurd rfl hne
  | cons h t ih =>
    cases t with
    | nil => rfl
    | cons h2 t2 =>
      have hrec := ih (by simp)
      show h ++ '\n' :: catLines (h2 :: t2) = (h ++ '\n' :: interNl (h2 :: t2)) ++ ['\n']
      rw [hrec]
      simp

theorem splitNl_ne_nil : ∀ l : GoStr, splitNl l ≠ [] := by
  intro l
  cases l with
  | nil => simp [splitNl]
  | cons c rest =>
    unfold splitNl
    split
    · simp
    · split <;> simp

theorem splitNl_cons_nl (rest : GoStr) :
    splitNl ('\n' :: rest) = [] :: splitNl rest := by
  conv_lhs => rw [splitNl]
  split
  · next heq => exact absurd heq (splitNl_ne_nil rest)
  · next g gs heq => simp [heq]

theorem splitNl_cons_of_ne (c : Char) (rest : GoStr) (hc : ¬ c = '\n') :
    splitNl (c :: rest) =
      (c :: (splitNl rest).headD []) :: (splitNl rest).tail := by
  conv_lhs => rw [splitNl]
  split
  · next heq => exact absurd heq (splitNl_ne_nil rest)
  · next g gs heq => simp [heq, hc]

theorem splitNl_no_nl (l : GoStr) (h : ∀ c ∈ l, ¬ c = '\n') : splitNl l = [l] := by
  induction l with
  | nil => rfl
  | cons c rest ih =>
    have hr := ih (fun x hx => h x (by simp [hx]))
    rw [splitNl_cons_of_ne c rest (h c (by simp)), hr]
    rfl

theorem splitNl_append (h rest : GoStr) (hh : ∀ c ∈ h, ¬ c = '\n') :
    splitNl (h ++ '\n' :: rest) = h :: splitNl rest := by
  induction h with
  | nil =>
    show splitNl ('\n' :: rest) = [] :: splitNl rest
    exact splitNl_cons_nl rest
  | cons c h' ih =>
    have hih := ih (fun x hx => hh x (by simp [hx]))
    show splitNl (c :: (h' ++ '\n' :: rest)) = (c :: h') :: splitNl rest
    rw [splitNl_cons_of_ne c _ (hh c (by simp)), hih]
    rfl

theorem hash_no_nl {h : GoStr} (hOk : hashOk h) : ∀ c ∈ h, ¬ c = '\n' := by
  intro c hc heq
  have := hOk.2 c hc
  rw [heq] at this
  simp [isSpaceChar] at this

theorem splitNl_interNl (hs : List GoStr) (hne : hs ≠ [])
    (hok : ∀ h ∈ hs, hashOk h) : splitNl (interNl hs) = hs := by
  induction hs with
  | nil => exact absurd rfl hne
  | cons h t ih =>
    have hOk := hok h (by simp)
    cases t with
    | nil => exact splitNl_no_nl h (hash_no_nl hOk)
    | cons h2 t2 =>
      show splitNl (h ++ '\n' :: interNl (h2 :: t2)) = h :: h2 :: t2
      rw [splitNl_append h _ (hash_no_nl hOk),
        ih (by simp) (fun x hx => hok x (by simp [hx]))]

/-! ### Ancestry lemmas for the repository model -/

theorem ancIdx_parent_none (r : Repo) {i : Nat} (hp : r.parentIdx i = none) :
    ∀ fuel, ancIdx r.parentIdx fuel i = [i] := by
  intro fuel
  cases fuel with
  | zero => rfl
  | succ f => simp [ancIdx, hp]

theorem ancIdx_stable (r : Repo) (hw : RepoWF r) :
    ∀ i, i < r.commits.length → ∀ fuel, i ≤ fuel → ancIdx r.parentIdx fuel i = anc r i := by
  intro i
  induction i using Nat.strong_induction_on with
  | _ i ih =>
    intro hi fuel hfuel
    cases hp : r.parentIdx i with
    | none => rw [ancIdx_parent_none r hp, anc, ancIdx_parent_none r hp]
    | some j =>
      have hji : j < i := hw.parentLt i hi j hp
      have hjlen : j < r.commits.length := by omega
      cases fuel with
      | zero => omega
      | succ f =>
        obtain ⟨i2, rfl⟩ : ∃ i2, i = i2 + 1 := ⟨i - 1, by omega⟩
        show ancIdx r.parentIdx (f + 1) (i2 + 1) = ancIdx r.parentIdx (i2 + 1) (i2 + 1)
        rw [show ancIdx r.parentIdx (f + 1) (i2 + 1) = (i2 + 1) :: ancIdx r.parentIdx f j by
              simp [ancIdx, hp],
            show ancIdx r.parentIdx (i2 + 1) (i2 + 1) = (i2 + 1) :: ancIdx r.parentIdx i2 j by
              simp [ancIdx, hp]]
        rw [ih j hji hjlen f (by omega), ih j hji hjlen i2 (by omega)]

theorem anc_parent_none (r : Repo) {i : Nat} (hp : r.parentIdx i = none) :
    anc r i = [i] := ancIdx_parent_none r hp i

theorem anc_parent_some (r : Repo) (hw : RepoWF r) {i j : Nat}
    (hi : i < r.commits.length) (hp : r.parentIdx i = some j) :
    anc r i = i :: anc r j := by
  have hji : j < i := hw.parentLt i hi j hp
  obtain ⟨i2, rfl⟩ : ∃ i2, i = i2 + 1 := ⟨i - 1, by omega⟩
  show ancIdx r.parentIdx (i2 + 1) (i2 + 1) = (i2 + 1) :: anc r j
  rw [show ancIdx r.parentIdx (i2 + 1) (i2 + 1) = (i2 + 1) :: ancIdx r.parentIdx i2 j by
        simp [ancIdx, hp]]
  rw [ancIdx_stable r hw j (by omega) i2 (by omega)]

theorem anc_le (r : Repo) (hw : RepoWF r) :
    ∀ i, i < r.commits.length → ∀ j ∈ anc r i, j ≤ i := by
  intro i
  induction i using Nat.strong_induction_on with
  | _ i ih =>
    intro hi j hj
    cases hp : r.parentIdx i with
    | none =>
      rw [anc_parent_none r hp] at hj
      simp at hj
      omega
    | some p =>
      have hpi : p < i := hw.parentLt i hi p hp
      rw [anc_parent_some r hw hi hp] at hj
      rcases List.mem_cons.mp hj with h | h
      · omega
      · have := ih p hpi (by omega) j h
        omega

theorem self_mem_anc (r : Repo) (i : Nat) : i ∈ anc r i := by
  cases i with
  | zero => simp [anc, ancIdx]
  | succ i2 =>
    show i2 + 1 ∈ ancIdx r.parentIdx (i2 + 1) (i2 + 1)
    simp [ancIdx]

theorem anc_sorted (r : Repo) (hw : RepoWF r) :
    ∀ i, i < r.commits.length → (anc r i).Sorted (· > ·) := by
  intro i
  induction i using Nat.strong_induction_on with
  | _ i ih =>
    intro hi
    cases hp : r.parentIdx i with
    | none => rw [anc_parent_none r hp]; simp
    | some p =>
      have hpi : p < i := hw.parentLt i hi p hp
      rw [anc_parent_some r hw hi hp, List.sorted_cons]
      refine ⟨?_, ih p hpi (by omega)⟩
      intro b hb
      have := anc_le r hw p (by omega) b hb
      omega

theorem anc_trans (r : Repo) (hw : RepoWF r) :
    ∀ i, i < r.commits.length → ∀ j ∈ anc r i, anc r j ⊆ anc r i := by
  intro i
  induction i using Nat.strong_induction_on with
  | _ i ih =>
    intro hi j hj
    cases hp : r.parentIdx i with
    | none =>
      rw [anc_parent_none r hp] at hj ⊢
      simp at hj
      subst hj
      rw [anc_parent_none r hp]
      exact fun x hx => hx
    | some p =>
      have hpi : p < i := hw.parentLt i hi p hp
      rw [anc_parent_some r hw hi hp] at hj ⊢
      rcases List.mem_cons.mp hj with h | h
      · subst h
        rw [anc_parent_some r hw hi hp]
        exact fun x hx => hx
      · intro x hx
        exact List.mem_cons_of_mem _ (ih p hpi (by omega) j h hx)

theorem mem_of_getLast?_eq {α : Type} (l : List α) (a : α)
    (h : l.getLast? = some a) : a ∈ l := by
  have hr : l.reverse.head? = some a := by rw [List.head?_reverse]; exact h
  have := List.mem_of_mem_head? (l := l.reverse) (by rw [hr]; rfl)
  simpa using this

theorem sorted_getLast?_le (l : List Nat) :
    l.Sorted (· > ·) → ∀ m, l.getLast? = some m → ∀ x ∈ l, m ≤ x := by
  induction l with
  | nil => intro _ m hm; simp at hm
  | cons a l2 ih =>
    intro hs m hm x hx
    cases l2 with
    | nil =>
      simp at hm hx
      omega
    | cons b l3 =>
      rw [List.getLast?_cons_cons] at hm
      have hparts := List.sorted_cons.mp hs
      rcases List.mem_cons.mp hx with h | h
      · have hmem : m ∈ b :: l3 := mem_of_getLast?_eq _ m hm
        have := hparts.1 m hmem
        omega
      · exact ih hparts.2 m hm x h

/-! ### Repository access lemmas -/

theorem hashAt_mem (r : Repo) {i : Nat} (hi : i < r.commits.length) :
    hashAt r i ∈ r.commits := by
  unfold hashAt
  rw [List.getD_eq_getElem r.commits [] hi]
  exact List.getElem_mem hi

theorem hashAt_ok (r : Repo) (hw : RepoWF r) {i : Nat}
    (hi : i < r.commits.length) : hashOk (hashAt r i) :=
  hw.hashesOk _ (hashAt_mem r hi)

theorem hashAt_inj (r : Repo) (hw : RepoWF r) {i j : Nat}
    (hi : i < r.commits.length) (hj : j < r.commits.length)
    (h : hashAt r i = hashAt r j) : i = j := by
  unfold hashAt at h
  rw [List.getD_eq_getElem r.commits [] hi, List.getD_eq_getElem r.commits [] hj] at h
  exact (List.Nodup.getElem_inj_iff hw.nodup).mp h

theorem lookupIdx_lt (r : Repo) (hw : RepoWF r) {n : GoStr} {i : Nat}
    (h : lookupIdx r n = some i) : i < r.commits.length := by
  unfold lookupIdx at h
  cases hf : r.refs.find? (fun p => decide (p.1 = n)) with
  | none => rw [hf] at h; simp at h
  | some p =>
    rw [hf] at h
    simp only [Option.map_some', Option.some.injEq] at h
    have hm := List.mem_of_find?_eq_some hf
    have := hw.refsLt p hm
    omega

theorem idxOfHash_getD (l : List GoStr) :
    l.Nodup → ∀ i, i < l.length → idxOfHash l (l.getD i []) = some i := by
  induction l with
  | nil => intro _ i hi; simp at hi
  | cons x xs ih =>
    intro hn i hi
    cases i with
    | zero =>
      show idxOfHash (x :: xs) x = some 0
      simp [idxOfHash]
    | succ i2 =>
      have hlen : i2 < xs.length := by simpa using hi
      have hmem : xs.getD i2 [] ∈ xs := by
        rw [List.getD_eq_getElem xs [] hlen]
        exact List.getElem_mem hlen
      have hx : ¬ x = xs.getD i2 [] := by
        intro he
        exact (List.nodup_cons.mp hn).1 (he ▸ hmem)
      have hrec := ih (List.nodup_cons.mp hn).2 i2 hlen
      show idxOfHash (x :: xs) ((x :: xs).getD (i2 + 1) []) = some (i2 + 1)
      rw [List.getD_cons_succ]
      show (if x = xs.getD i2 [] then some 0
        else (idxOfHash xs (xs.getD i2 [])).map (· + 1)) = some (i2 + 1)
      rw [if_neg hx, hrec]
      rfl

/-! ### New-commit set lemmas -/

theorem newIdxs_sorted (r : Repo) (hw : RepoWF r) {f t : Nat}
    (ht : t < r.commits.length) : (newIdxs r f t).Sorted (· > ·) :=
  List.Pairwise.filter _ (anc_sorted r hw t ht)

theorem newIdxs_subset_anc (r : Repo) {f t : Nat} :
    newIdxs r f t ⊆ anc r t := fun x hx => List.mem_of_mem_filter hx

theorem newIdxs_le (r : Repo) (hw : RepoWF r) {f t : Nat}
    (ht : t < r.commits.length) : ∀ j ∈ newIdxs r f t, j ≤ t :=
  fun j hj => anc_le r hw t ht j (newIdxs_subset_anc r hj)

theorem newIdxs_not_mem_fence (r : Repo) {f t : Nat} :
    ∀ j ∈ newIdxs r f t, j ∉ anc r f := by
  intro j hj
  have := List.of_mem_filter hj
  simpa using this

theorem newIdxs_cons (r : Repo) (hw : RepoWF r) {f t : Nat}
    (ht : t < r.commits.length) (hnm : t ∉ anc r f) :
    ∃ rest, newIdxs r f t = t :: rest := by
  obtain ⟨tail, htail⟩ : ∃ tail, anc r t = t :: tail := by
    cases hp : r.parentIdx t with
    | none => exact ⟨[], anc_parent_none r hp⟩
    | some p => exact ⟨anc r p, anc_parent_some r hw ht hp⟩
  unfold newIdxs
  rw [htail, List.filter_cons]
  rw [if_pos (by simp [hnm])]
  exact ⟨List.filter (fun i => decide (i ∉ anc r f)) tail, rfl⟩

theorem newIdxs_nil_of_mem (r : Repo) (hw : RepoWF r) {f t : Nat}
    (hf : f < r.commits.length) (ht : t < r.commits.length)
    (hmem : t ∈ anc r f) : newIdxs r f t = [] := by
  have hsub : anc r t ⊆ anc r f := anc_trans r hw f hf t hmem
  unfold newIdxs
  rw [List.filter_eq_nil_iff]
  intro a ha
  simp [hsub ha]

theorem tip_mem_of_newIdxs_ne_nil (r : Repo) (hw : RepoWF r) {f t : Nat}
    (hf : f < r.commits.length) (ht : t < r.commits.length)
    (hne : newIdxs r f t ≠ []) : t ∉ anc r f := by
  intro hmem
  exact hne (newIdxs_nil_of_mem r hw hf ht hmem)

theorem commonAnc_mem (r : Repo) {a b m : Nat} (h : commonAnc r a b = some m) :
    m ∈ anc r a ∧ m ∈ anc r b := by
  unfold commonAnc at h
  have hmem := List.mem_of_mem_head?
    (l := (anc r a).filter (fun i => decide (i ∈ anc r b))) (by rw [h]; rfl)
  exact ⟨List.mem_of_mem_filter hmem, by simpa using List.of_mem_filter hmem⟩

/-! ### Oracle evaluation helpers -/

theorem goTrimSpace_hash {h : GoStr} (hOk : hashOk h) :
    goTrimSpace (h ++ ['\n']) = h :=
  goTrimSpace_wrap h hOk.1
    (fun c hc => hOk.2 c (List.mem_of_mem_head? (by rw [hc]; rfl)))
    (fun c hc => hOk.2 c (mem_of_getLast?_eq _ _ hc))

theorem trim_catLines (hs : List GoStr) (hne : hs ≠ [])
    (hok : ∀ h ∈ hs, hashOk h) :
    goTrimSpace (catLines hs) = interNl hs := by
  rw [catLines_eq_interNl hs hne]
  have hf := interNl_facts hs hne hok
  exact goTrimSpace_wrap _ hf.1 hf.2.1 hf.2.2

theorem headD_reverse_map {α β : Type} (l : List α) (f : α → β) (d : β)
    (hne : l ≠ []) : (l.reverse.map f).headD d = f (l.getLastD (l.getLast hne)) := by
  have hgl : l.getLast? = some (l.getLast hne) := List.getLast?_eq_getLast l hne
  have hrev : l.reverse.head? = some (l.getLast hne) := by
    rw [List.head?_reverse]; exact hgl
  have hmap : (l.reverse.map f).head? = some (f (l.getLast hne)) := by
    rw [List.head?_map, hrev]; rfl
  have hlast : l.getLastD (l.getLast hne) = l.getLast hne := by
    rw [List.getLastD_eq_getLast?, hgl]; rfl
  rw [hlast]
  cases hml : l.reverse.map f with
  | nil => rw [hml] at hmap; simp at hmap
  | cons a tl =>
    rw [hml] at hmap
    simp only [List.head?_cons, Option.some.injEq] at hmap
    simp [hmap]

theorem getLastD_eq_getLast_of_ne_nil {α : Type} (l : List α) (d : α)
    (hne : l ≠ []) : l.getLastD d = l.getLast hne := by
  rw [List.getLastD_eq_getLast?, List.getLast?_eq_getLast l hne]; rfl

theorem newIdxs_getLastD_le (r : Repo) (hw : RepoWF r) {f t : Nat}
    (ht : t < r.commits.length) (hne : newIdxs r f t ≠ []) :
    ∀ i ∈ newIdxs r f t, (newIdxs r f t).getLastD 0 ≤ i := by
  intro i hi
  have hgl := List.getLast?_eq_getLast _ hne
  have := sorted_getLast?_le _ (newIdxs_sorted r hw ht) _ hgl i hi
  rw [getLastD_eq_getLast_of_ne_nil _ 0 hne]
  exact this

theorem newIdxs_single (r : Repo) (hw : RepoWF r) {f t : Nat}
    (hf : f < r.commits.length) (ht : t < r.commits.length)
    (hne : newIdxs r f t ≠ []) (hlen1 : (newIdxs r f t).length = 1) :
    (newIdxs r f t).getLastD 0 = t := by
  have hnm := tip_mem_of_newIdxs_ne_nil r hw hf ht hne
  obtain ⟨rest, hr⟩ := newIdxs_cons r hw ht hnm
  rw [hr] at hlen1 ⊢
  have hres : rest = [] := by
    have : rest.length = 0 := by simpa using hlen1
    simpa using this
  subst hres
  rfl

theorem fence_eq_tip_of_nil (r : Repo) (hw : RepoWF r) {m f t : Nat}
    (hm : m < r.commits.length) (ht : t < r.commits.length)
    (hca : commonAnc r m t = some f) (hnil : newIdxs r f t = []) : f = t := by
  have hmem := commonAnc_mem r hca
  have hfle : f ≤ m := anc_le r hw m hm f hmem.1
  have hflen : f < r.commits.length := by omega
  have hftle : f ≤ t := anc_le r hw t ht f hmem.2
  have htm : t ∈ anc r f := by
    by_contra hnm
    obtain ⟨rest, hr⟩ := newIdxs_cons r hw ht hnm
    rw [hr] at hnil
    simp at hnil
  have : t ≤ f := anc_le r hw f hflen t htm
  omega

theorem headD_reverse_map_getLastD {α β : Type} (l : List α) (f : α → β)
    (d : β) (d0 : α) (hne : l ≠ []) :
    (l.reverse.map f).headD d = f (l.getLastD d0) := by
  rw [headD_reverse_map l f d hne,
    getLastD_eq_getLast_of_ne_nil l (l.getLast hne) hne,
    getLastD_eq_getLast_of_ne_nil l d0 hne]

theorem asc_trim_nil (r : Repo) {fIdx tIdx : Nat}
    (hnil : newIdxs r fIdx tIdx = []) :
    goTrimSpace (catLines ((newIdxs r fIdx tIdx).reverse.map (hashAt r))) = [] := by
  rw [hnil]; rfl

theorem asc_facts (r : Repo) (hw : RepoWF r) {fIdx tIdx : Nat}
    (htl : tIdx < r.commits.length) (hne : newIdxs r fIdx tIdx ≠ []) :
    goTrimSpace (catLines ((newIdxs r fIdx tIdx).reverse.map (hashAt r))) =
      interNl ((newIdxs r fIdx tIdx).reverse.map (hashAt r))
  ∧ interNl ((newIdxs r fIdx tIdx).reverse.map (hashAt r)) ≠ []
  ∧ (splitNl (interNl ((newIdxs r fIdx tIdx).reverse.map (hashAt r)))).headD [] =
      hashAt r ((newIdxs r fIdx tIdx).getLastD 0) := by
  have hascne : (newIdxs r fIdx tIdx).reverse.map (hashAt r) ≠ [] := by
    simp [hne]
  have hokAll : ∀ h ∈ (newIdxs r fIdx tIdx).reverse.map (hashAt r), hashOk h := by
    intro h hh
    simp only [List.mem_map, List.mem_reverse] at hh
    obtain ⟨j, hj, rfl⟩ := hh
    have hjle := newIdxs_le r hw htl j hj
    exact hashAt_ok r hw (by omega)
  refine ⟨trim_catLines _ hascne hokAll, (interNl_facts _ hascne hokAll).1, ?_⟩
  rw [splitNl_interNl _ hascne hokAll]
  exact headD_reverse_map_getLastD _ _ _ 0 hne

theorem GBCR_marker_eval (r : Repo) (hw : RepoWF r) (b : GoStr) {tIdx sIdx : Nat}
    (htip : lookupIdx r b = some tIdx)
    (hst : lookupIdx r (b ++ sLit "-START") = some sIdx) :
    GetBranchCommitRange (gitOpsOfRepo r) b =
      (if newIdxs r sIdx tIdx = [] then .ok ([], [])
       else .ok (hashAt r ((newIdxs r sIdx tIdx).getLastD 0), hashAt r tIdx)) := by
  have htl := lookupIdx_lt r hw htip
  have hsl := lookupIdx_lt r hw hst
  have hth := hashAt_ok r hw htl
  have hsh := hashAt_ok r hw hsl
  have h1 : (gitOpsOfRepo r).revParse b = .ok (hashAt r tIdx ++ ['\n']) := by
    simp [gitOpsOfRepo, htip]
  have h2 : (gitOpsOfRepo r).revParseVerify (b ++ sLit "-START") =
      .ok (hashAt r sIdx ++ ['\n']) := by
    simp [gitOpsOfRepo, hst]
  have hidx : idxOfHash r.commits (hashAt r sIdx) = some sIdx :=
    idxOfHash_getD r.commits hw.nodup sIdx hsl
  have h3 : (gitOpsOfRepo r).revListReverse (hashAt r sIdx) b =
      .ok (catLines ((newIdxs r sIdx tIdx).reverse.map (hashAt r))) := by
    simp [gitOpsOfRepo, htip, hidx]
  simp only [GetBranchCommitRange, h1, h2, goTrimSpace_hash hth,
    goTrimSpace_hash hsh, h3]
  by_cases hnil : newIdxs r sIdx tIdx = []
  · rw [asc_trim_nil r hnil]
    simp [hnil]
  · obtain ⟨heq, hne2, hhead⟩ := asc_facts r hw htl hnil
    rw [heq, if_neg hne2, if_neg hnil, hhead]

theorem GBCR_mb_eval (r : Repo) (hw : RepoWF r) (b : GoStr) {tIdx mIdx : Nat}
    (htip : lookupIdx r b = some tIdx)
    (hnone : lookupIdx r (b ++ sLit "-START") = none)
    (hmain : lookupIdx r (sLit "main") = some mIdx) :
    GetBranchCommitRange (gitOpsOfRepo r) b =
      (match commonAnc r mIdx tIdx with
       | none => .ok ([], [])
       | some f =>
         if hashAt r f = hashAt r tIdx then .ok ([], [])
         else if newIdxs r f tIdx = [] then .ok ([], [])
         else .ok (hashAt r ((newIdxs r f tIdx).getLastD 0), hashAt r tIdx)) := by
  have htl := lookupIdx_lt r hw htip
  have hml := lookupIdx_lt r hw hmain
  have hth := hashAt_ok r hw htl
  have h1 : (gitOpsOfRepo r).revParse b = .ok (hashAt r tIdx ++ ['\n']) := by
    simp [gitOpsOfRepo, htip]
  have h2 : (gitOpsOfRepo r).revParseVerify (b ++ sLit "-START") =
      .error "needed a single revision" := by
    simp [gitOpsOfRepo, hnone]
  have h4 : (gitOpsOfRepo r).mergeBase (sLit "main") b =
      (match commonAnc r mIdx tIdx with
       | some m => .ok (hashAt r m ++ ['\n'])
       | none => .error "exit status 1") := by
    simp [gitOpsOfRepo, hmain, htip]
  simp only [GetBranchCommitRange, h1, h2, goTrimSpace_hash hth, h4]
  cases hca : commonAnc r mIdx tIdx with
  | none => rfl
  | some f =>
    have hfle : f ≤ mIdx := anc_le r hw mIdx hml f (commonAnc_mem r hca).1
    have hfl : f < r.commits.length := by omega
    have hfh := hashAt_ok r hw hfl
    simp only [goTrimSpace_hash hfh]
    by_cases heqh : hashAt r f = hashAt r tIdx
    · rw [if_pos heqh, if_pos heqh]
    · rw [if_neg heqh, if_neg heqh]
      have hidx : idxOfHash r.commits (hashAt r f) = some f :=
        idxOfHash_getD r.commits hw.nodup f hfl
      have h3 : (gitOpsOfRepo r).revListReverse (hashAt r f) b =
          .ok (catLines ((newIdxs r f tIdx).reverse.map (hashAt r))) := by
        simp [gitOpsOfRepo, htip, hidx]
      simp only [h3]
      by_cases hnil : newIdxs r f tIdx = []
      · rw [asc_trim_nil r hnil]
        simp [hnil]
      · obtain ⟨heq2, hne2, hhead⟩ := asc_facts r hw htl hnil
        rw [heq2, if_neg hne2, if_neg hnil, hhead]

theorem gitOpsOfRepo_upstreams_irrel (r : Repo) (ups : List (GoStr × GoStr)) :
    gitOpsOfRepo { r with upstreams := ups } = gitOpsOfRepo r := rfl

/-- C2: for every well-formed model repository and branch, the resolver
returns `("","")` when the branch has no commits beyond its fence point (the
`-START` marker if that ref exists, otherwise the merge-base with the
integration branch `main`); with new commits present it returns the
chronologically earliest new commit (the minimum of the new-commit set in
chronological order) as first and the branch tip as last, so one new commit
gives first = last; and the result ignores the repository's upstream-tracking
table entirely — `main` is hard-coded. -/
theorem getBranchCommitRange_resolver (r : Repo) (hw : RepoWF r)
    (b : GoStr) (tIdx : Nat) (htip : lookupIdx r b = some tIdx) :
    (∀ sIdx, lookupIdx r (b ++ sLit "-START") = some sIdx →
        (newIdxs r sIdx tIdx = [] →
          GetBranchCommitRange (gitOpsOfRepo r) b = .ok ([], []))
      ∧ (newIdxs r sIdx tIdx ≠ [] →
          GetBranchCommitRange (gitOpsOfRepo r) b =
            .ok (hashAt r ((newIdxs r sIdx tIdx).getLastD 0), hashAt r tIdx)
          ∧ (∀ i ∈ newIdxs r sIdx tIdx, (newIdxs r sIdx tIdx).getLastD 0 ≤ i)
          ∧ ((newIdxs r sIdx tIdx).length = 1 →
              hashAt r ((newIdxs r sIdx tIdx).getLastD 0) = hashAt r tIdx)))
  ∧ (lookupIdx r (b ++ sLit "-START") = none →
      ∀ mIdx, lookupIdx r (sLit "main") = some mIdx →
        (commonAnc r mIdx tIdx = none →
          GetBranchCommitRange (gitOpsOfRepo r) b = .ok ([], []))
      ∧ (∀ f, commonAnc r mIdx tIdx = some f →
          (newIdxs r f tIdx = [] →
            GetBranchCommitRange (gitOpsOfRepo r) b = .ok ([], []))
        ∧ (newIdxs r f tIdx ≠ [] →
            GetBranchCommitRange (gitOpsOfRepo r) b =
              .ok (hashAt r ((newIdxs r f tIdx).getLastD 0), hashAt r tIdx)
            ∧ (∀ i ∈ newIdxs r f tIdx, (newIdxs r f tIdx).getLastD 0 ≤ i)
            ∧ ((newIdxs r f tIdx).length = 1 →
                hashAt r ((newIdxs r f tIdx).getLastD 0) = hashAt r tIdx))))
  ∧ (∀ ups, GetBranchCommitRange (gitOpsOfRepo { r with upstreams := ups }) b =
        GetBranchCommitRange (gitOpsOfRepo r) b) := by
  have htl := lookupIdx_lt r hw htip
  refine ⟨?_, ?_, fun ups => by rw [gitOpsOfRepo_upstreams_irrel r ups]⟩
  · intro sIdx hst
    have hsl := lookupIdx_lt r hw hst
    have heval := GBCR_marker_eval r hw b htip hst
    constructor
    · intro hnil
      rw [heval, if_pos hnil]
    · intro hne
      refine ⟨by rw [heval, if_neg hne], newIdxs_getLastD_le r hw htl hne, ?_⟩
      intro hlen1
      rw [newIdxs_single r hw hsl htl hne hlen1]
  · intro hnone mIdx hmain
    have hml := lookupIdx_lt r hw hmain
    have heval := GBCR_mb_eval r hw b htip hnone hmain
    constructor
    · intro hcan
      rw [heval]
      simp only [hcan]
    · intro f hca
      have hfle : f ≤ mIdx := anc_le r hw mIdx hml f (commonAnc_mem r hca).1
      have hfl : f < r.commits.length := by omega
      constructor
      · intro hnil
        have hft : f = tIdx := fence_eq_tip_of_nil r hw hml htl hca hnil
        rw [heval]
        simp only [hca]
        rw [if_pos (by rw [hft])]
      · intro hne
        have hfneq : f ≠ tIdx := by
          intro he
          subst he
          exact (tip_mem_of_newIdxs_ne_nil r hw hfl htl hne) (self_mem_anc r f)
        have hneq : hashAt r f ≠ hashAt r tIdx :=
          fun he => hfneq (hashAt_inj r hw hfl htl he)
        refine ⟨by rw [heval]; simp only [hca]; rw [if_neg hneq, if_neg hne],
          newIdxs_getLastD_le r hw htl hne, ?_⟩
        intro hlen1
        rw [newIdxs_single r hw hfl htl hne hlen1]

/-- Witness repository: `main` at commit 0; branch `giverny/demo-1` at
commit 2 with two commits (1, 2) beyond its `-START` marker at commit 0. -/
def demoRepo : Repo where
  commits := [sLit "a1", sLit "b2", sLit "c3"]
  parentIdx := fun i =>
    match i with
    | 1 => some 0
    | 2 => some 1
    | _ => none
  refs := [(sLit "main", 0), (sLit "giverny/demo-1", 2),
    (sLit "giverny/demo-1-START", 0)]
  upstreams := []

theorem demoRepoWF : RepoWF demoRepo := by
  refine ⟨by decide, ?_, by decide, ?_⟩
  · intro h hm
    fin_cases hm <;> exact ⟨by decide, by decide⟩
  · intro i hi j hj
    have hlen : i < 3 := by simpa [demoRepo] using hi
    interval_cases i <;> simp_all [demoRepo] <;> omega

/-- Witness for C2: on the witness repository the resolver reports the range
from the earliest new commit to the branch tip. -/
theorem getBranchCommitRange_resolver_witness :
    GetBranchCommitRange (gitOpsOfRepo demoRepo) (sLit "giverny/demo-1") =
      .ok (hashAt demoRepo ((newIdxs demoRepo 0 2).getLastD 0), hashAt demoRepo 2) :=
  (((getBranchCommitRange_resolver demoRepo demoRepoWF (sLit "giverny/demo-1") 2
    (by decide)).1 0 (by decide)).2 (by decide)).1
